import Mathlib

/-!
Shallow embedding of the visual segmentation and highlight-assembly core of
the AutoReel-Agent repository, together with theorems checking the
specification's claims against it.

Covered source code:
* `src/utils/video_analyzer.py` — `cluster_colors` (online color clustering)
  and `get_speaker_segments` (collapsing per-sample cluster ids into
  contiguous labeled segments);
* `src/agents/highlight_agent.py` — the speaker-consistency refinement loop
  of `HighlightAgent.detect` (lines 62-103), together with
  `Transcript.get_segments_in_range` from `src/models/__init__.py`;
* `src/utils/ffmpeg_utils.py` — the filter-graph/plan construction of
  `concat_segments_visual`.

Numeric convention: the Python code computes on floats; the embedding uses
`ℚ` so every value the claims mention (0.9, 0.1, 1/fps, clipped durations)
is represented exactly.  Euclidean distances are compared through their
squares (`dist2 a b < t*t` with `0 < t`), which is equivalent to comparing
`Real.sqrt (dist2 a b) < t`; lemma `sqrt_lt_iff_distLt` records the
equivalence.
-/

namespace AutoReel

/-- An RGB triple.  Sample colors start as integers 0-255 but cluster
centroids become non-integral under the exponential moving average, so all
components live in `ℚ` (modelling `numpy` float arrays in
`src/utils/video_analyzer.py`). -/
structure RGB where
  r : ℚ
  g : ℚ
  b : ℚ
  deriving Repr, DecidableEq

/-- Squared Euclidean distance between two colors: the square of
`np.linalg.norm(color - cluster_avg)` in `cluster_colors`. -/
def dist2 (a c : RGB) : ℚ :=
  (a.r - c.r) ^ 2 + (a.g - c.g) ^ 2 + (a.b - c.b) ^ 2

/-- `distLt a c t` embeds the test `np.linalg.norm(color - cluster_avg) < threshold`
of `cluster_colors` (line 66): the Euclidean distance (a nonnegative real)
is strictly below `t` iff `t` is positive and the squared distance is below
`t*t`.  Stated on squares so it is exactly computable in `ℚ`. -/
def distLt (a c : RGB) (t : ℚ) : Bool :=
  decide (0 < t) && decide (dist2 a c < t * t)

/-- The scan `for i, cluster_avg in enumerate(clusters): if dist < threshold: ... break`
of `cluster_colors` (lines 64-70): index of the first cluster whose centroid
is strictly within `t` of `color`, scanning in cluster-id (creation) order;
`none` when no centroid matches (`assigned` stays `False` in the source). -/
def findCluster : List RGB → RGB → ℚ → Option ℕ
  | [], _, _ => none
  | c :: rest, color, t =>
      if distLt color c t then some 0 else (findCluster rest color t).map (· + 1)

/-- Centroid update `clusters[i] = (clusters[i] * 0.9) + (color * 0.1)`
(line 68 of `src/utils/video_analyzer.py`). -/
def emaUpdate (c color : RGB) : RGB :=
  ⟨c.r * (9/10) + color.r * (1/10),
   c.g * (9/10) + color.g * (1/10),
   c.b * (9/10) + color.b * (1/10)⟩

/-- One iteration of the `for sample in samples` loop of `cluster_colors`:
returns the assigned `speaker_id` and the updated cluster list.  On a match
at index `i` the centroid is EMA-updated in place; otherwise a new cluster
with centroid `color` is appended and its id (the previous cluster count)
returned. -/
def assignSample (clusters : List RGB) (color : RGB) (t : ℚ) : ℕ × List RGB :=
  match findCluster clusters color t with
  | some i => (i, clusters.set i (emaUpdate (clusters.getD i ⟨0, 0, 0⟩) color))
  | none => (clusters.length, clusters ++ [color])

/-- A color sample as produced by `extract_average_colors`: a timestamp and
an average frame color. -/
structure CSample where
  timestamp : ℚ
  color : RGB
  deriving Repr, DecidableEq

/-- Recursion underlying `cluster_colors`: threads the cluster list through
the sample stream, emitting each sample's assigned `speaker_id`. -/
def clusterGo (t : ℚ) : List CSample → List RGB → List (CSample × ℕ)
  | [], _ => []
  | s :: rest, clusters =>
      let r := assignSample clusters s.color t
      (s, r.1) :: clusterGo t rest r.2

/-- `cluster_colors(samples, threshold)` of `src/utils/video_analyzer.py`:
pairs every sample with its assigned `speaker_id`, starting from an empty
cluster list. -/
def cluster_colors (samples : List CSample) (t : ℚ) : List (CSample × ℕ) :=
  clusterGo t samples []

/-! ### Segment builder (`get_speaker_segments`, `src/utils/video_analyzer.py` lines 85-112) -/

/-- An output segment of `get_speaker_segments`: a dict
`{"start": ..., "end": ..., "speaker": f"Speaker {id}"}`.  `end` is a Lean
keyword, so the field is written `«end»`. -/
structure VSegment where
  start : ℚ
  «end» : ℚ
  speaker : String
  deriving Repr, DecidableEq

/-- The label `f"Speaker {current_speaker}"`. -/
def speakerLabel (n : ℕ) : String := "Speaker " ++ toString n

/-- The timestamp of the last consumed sample: `d` when `rest` is empty,
otherwise the last element's timestamp (models `samples[-1]["timestamp"]`). -/
def lastTs0 : List (CSample × ℕ) → ℚ → ℚ
  | [], d => d
  | p :: rest, _ => lastTs0 rest p.1.timestamp

/-- The `for i in range(1, len(samples))` loop of `get_speaker_segments` plus
the trailing "Add last segment" step: `cur`/`st` are `current_speaker` and
`start_time`; `last` is the timestamp of the most recently consumed sample,
so that the final segment can end at `samples[-1]["timestamp"] + 1.0/fps`. -/
def buildLoop (fps : ℚ) : List (CSample × ℕ) → ℕ → ℚ → ℚ → List VSegment
  | [], cur, st, last => [⟨st, last + 1 / fps, speakerLabel cur⟩]
  | p :: rest, cur, st, _ =>
      if p.2 ≠ cur then
        ⟨st, p.1.timestamp, speakerLabel cur⟩ ::
          buildLoop fps rest p.2 p.1.timestamp p.1.timestamp
      else
        buildLoop fps rest cur st p.1.timestamp

/-- The segment-building pass of `get_speaker_segments`, on an arbitrary
stream of `(sample, speaker_id)` pairs (the shape `cluster_colors` returns):
empty input yields empty output, otherwise the loop starts from the first
sample's id and timestamp. -/
def build (pairs : List (CSample × ℕ)) (fps : ℚ) : List VSegment :=
  match pairs with
  | [] => []
  | p :: rest => buildLoop fps rest p.2 p.1.timestamp p.1.timestamp

/-- `get_speaker_segments` without its external sampling step: cluster the
given samples, then collapse the per-sample ids into labeled segments. -/
def get_speaker_segments (samples : List CSample) (fps threshold : ℚ) : List VSegment :=
  build (cluster_colors samples threshold) fps

/-! ### Highlight refinement (`HighlightAgent.detect`, `src/agents/highlight_agent.py` lines 62-103) -/

/-- The fields of `TranscriptSegment` (`src/models/__init__.py`) the refiner
reads.  `speaker` is `Optional[str]` in the source; the refiner uses it as a
dict key, modelled here as a plain `String`. -/
structure TSegment where
  start : ℚ
  «end» : ℚ
  speaker : String
  deriving Repr, DecidableEq

/-- A `Highlight` (`src/models/__init__.py`): the refiner reassigns `start`
and `end` and leaves every other field alone. -/
structure Highlight where
  id : ℕ
  start : ℚ
  «end» : ℚ
  text : String
  virality_score : ℚ
  reason : String
  suggested_title : Option String
  signals : List String
  deriving Repr, DecidableEq

/-- `Transcript.get_segments_in_range(start, end)`
(`src/models/__init__.py` lines 43-48): all segments with
`seg.end > start and seg.start < end`. -/
def get_segments_in_range (segs : List TSegment) (s e : ℚ) : List TSegment :=
  segs.filter (fun g => decide (s < g.«end») && decide (g.start < e))

/-- `dur = min(seg.end, h.end) - max(seg.start, h.start)` (line 72). -/
def clippedDur (h : Highlight) (g : TSegment) : ℚ :=
  min g.«end» h.«end» - max g.start h.start

/-- `speaker_durations[seg.speaker] = speaker_durations.get(seg.speaker, 0) + dur`:
a Python dict as an insertion-ordered association list — an existing key is
updated in place, a new key is appended. -/
def addDur (m : List (String × ℚ)) (k : String) (v : ℚ) : List (String × ℚ) :=
  if m.any (fun p => p.1 == k) then
    m.map (fun p => if p.1 == k then (p.1, p.2 + v) else p)
  else
    m ++ [(k, v)]

/-- One iteration of the `for seg in segments` accumulation loop
(lines 71-74): skip non-positive clipped durations. -/
def durStep (h : Highlight) (m : List (String × ℚ)) (g : TSegment) : List (String × ℚ) :=
  if 0 < clippedDur h g then addDur m g.speaker (clippedDur h g) else m

/-- The `speaker_durations` dict built over the overlapping segments. -/
def speaker_durations (segs : List TSegment) (h : Highlight) : List (String × ℚ) :=
  (get_segments_in_range segs h.start h.«end»).foldl (durStep h) []

/-- Python's `max(iterable, key=...)` scan: keep the current best, replace
only on a strictly greater value, so ties keep the earlier element. -/
def maxGo : List (String × ℚ) → String → ℚ → String
  | [], bk, _ => bk
  | (k, v) :: rest, bk, bv => if bv < v then maxGo rest k v else maxGo rest bk bv

/-- `max(speaker_durations, key=speaker_durations.get)` over the
insertion-ordered dict: the first key attaining the maximal value. -/
def maxByValue : List (String × ℚ) → Option String
  | [] => none
  | (k, v) :: rest => some (maxGo rest k v)

/-- `dominant_speaker = max(speaker_durations, key=speaker_durations.get)`
(line 79). -/
def dominant_speaker (segs : List TSegment) (h : Highlight) : Option String :=
  maxByValue (speaker_durations segs h)

/-- Dict lookup with default 0 (`speaker_durations[dominant_speaker]` — the
key is always present when used). -/
def lookupD (m : List (String × ℚ)) (k : String) : ℚ :=
  ((m.find? (fun p => p.1 == k)).map Prod.snd).getD 0

/-- `dominant_ratio = speaker_durations[dominant_speaker] / total_duration`
with `total_duration = h.end - h.start` (lines 80-81). -/
def dominant_ratio (segs : List TSegment) (h : Highlight) (dom : String) : ℚ :=
  lookupD (speaker_durations segs h) dom / (h.«end» - h.start)

/-- `dom_segments = [s for s in segments if s.speaker == dominant_speaker]`
(line 88). -/
def dom_segments (segs : List TSegment) (h : Highlight) (dom : String) : List TSegment :=
  (get_segments_in_range segs h.start h.«end»).filter (fun g => g.speaker == dom)

/-- The body of the `for h in highlights` post-processing loop of
`HighlightAgent.detect` (lines 62-101), as a pure transformation: `none`
models `continue` (the candidate is dropped), `some h'` models appending
`h'` to `cleaned_highlights` (with `h.start`/`h.end` reassigned in the
trim branch). -/
def refineHighlight (min_duration : ℚ) (segs : List TSegment) (h : Highlight) :
    Option Highlight :=
  if (get_segments_in_range segs h.start h.«end»).isEmpty then none
  else if (speaker_durations segs h).isEmpty then none
  else
    match dominant_speaker segs h with
    | none => none
    | some dom =>
      if dominant_ratio segs h dom < 9/10 then
        match (dom_segments segs h dom).head?, (dom_segments segs h dom).getLast? with
        | some first, some last =>
          if min_duration ≤ min h.«end» last.«end» - max h.start first.start then
            some { h with start := max h.start first.start, «end» := min h.«end» last.«end» }
          else none
        | _, _ => none
      else some h

/-! ### Stitch plan (`concat_segments_visual`, `src/utils/ffmpeg_utils.py` lines 266-323) -/

/-- A `segments` entry passed to `concat_segments_visual`: a dict with
`start` and `end` keys. -/
structure SegRange where
  start : ℚ
  «end» : ℚ
  deriving Repr, DecidableEq

/-- One clip of the stitch plan: the `trim=start={start}:end={end}` filter
parameters of clip `i` (lines 292-298, emitted in input order) together with
the clip's position on the output timeline.  `setpts=PTS-STARTPTS` rebases
each clip to 0 and the `concat` filter plays the clips back to back, so clip
`i` starts at the sum of the durations of clips `0..i-1`. -/
structure PlanEntry where
  source_start : ℚ
  source_end : ℚ
  output_offset : ℚ
  deriving Repr, DecidableEq

/-- Plan construction: walk the ranges in the given order, carrying the
running output offset (0 for the first clip, advanced by each clip's
duration). -/
def concatPlanFrom : List SegRange → ℚ → List PlanEntry
  | [], _ => []
  | s :: rest, off =>
      ⟨s.start, s.«end», off⟩ :: concatPlanFrom rest (off + (s.«end» - s.start))

/-- The stitch plan of `concat_segments_visual` for a list of ranges: one
entry per range, in the input's requested order, first offset 0.  The
construction performs no validation of its input ranges. -/
def concat_plan (segs : List SegRange) : List PlanEntry :=
  concatPlanFrom segs 0

/-- Total output duration: the sum of the range durations. -/
def total_duration (segs : List SegRange) : ℚ :=
  (segs.map (fun s => s.«end» - s.start)).sum

/-! ## Supporting lemmas -/

/-- Squared distances are nonnegative. -/
lemma dist2_nonneg (a c : RGB) : 0 ≤ dist2 a c := by
  unfold dist2
  positivity

/-- The squared comparison used in `distLt` agrees with the real
Euclidean-distance comparison `np.linalg.norm(color - centroid) < threshold`
of the Python source. -/
lemma sqrt_lt_iff_distLt (a c : RGB) (t : ℚ) :
    Real.sqrt (dist2 a c : ℝ) < (t : ℝ) ↔ distLt a c t = true := by
  unfold distLt
  simp only [Bool.and_eq_true, decide_eq_true_eq]
  constructor
  · intro h
    have hnn : (0 : ℝ) ≤ Real.sqrt (dist2 a c : ℝ) := Real.sqrt_nonneg _
    have ht : (0 : ℝ) < (t : ℝ) := lt_of_le_of_lt hnn h
    have h2 : (dist2 a c : ℝ) < (t : ℝ) ^ 2 := (Real.sqrt_lt' ht).mp h
    refine ⟨by exact_mod_cast ht, ?_⟩
    have h2' : (dist2 a c : ℝ) < (t : ℝ) * (t : ℝ) := by rw [← sq]; exact h2
    exact_mod_cast h2'
  · rintro ⟨ht, h2⟩
    have ht' : (0 : ℝ) < (t : ℝ) := by exact_mod_cast ht
    have h2' : (dist2 a c : ℝ) < (t : ℝ) * (t : ℝ) := by exact_mod_cast h2
    exact (Real.sqrt_lt' ht').mpr (by rw [sq]; exact h2')

/-- What a successful `findCluster` scan means: the returned index holds a
matching centroid and every earlier centroid fails the strict threshold
test. -/
lemma findCluster_some (clusters : List RGB) (c : RGB) (t : ℚ) :
    ∀ i, findCluster clusters c t = some i →
      ∃ ci, clusters.get? i = some ci ∧ distLt c ci t = true ∧
        ∀ j, j < i → ∀ cj, clusters.get? j = some cj → distLt c cj t = false := by
  induction clusters with
  | nil => intro i hi; simp [findCluster] at hi
  | cons c0 rest ih =>
    intro i hi
    unfold findCluster at hi
    by_cases h0 : distLt c c0 t = true
    · rw [if_pos h0] at hi
      cases hi
      exact ⟨c0, rfl, h0, fun j hj => absurd hj (Nat.not_lt_zero j)⟩
    · rw [if_neg h0] at hi
      cases hfr : findCluster rest c t with
      | none => rw [hfr] at hi; simp at hi
      | some i' =>
        rw [hfr] at hi
        simp only [Option.map_some'] at hi
        cases hi
        obtain ⟨ci, hget, hlt, hprev⟩ := ih i' hfr
        refine ⟨ci, by simpa using hget, hlt, ?_⟩
        intro j hj cj hgj
        cases j with
        | zero =>
          simp only [List.get?_cons_zero, Option.some.injEq] at hgj
          subst hgj
          simpa using h0
        | succ j' =>
          apply hprev j' (Nat.lt_of_succ_lt_succ hj)
          simpa using hgj

/-- Auxiliary: `getLast?` of a cons with a non-empty tail is the tail's. -/
lemma getLast?_cons_of_ne_nil {α : Type} (x : α) (l : List α) (h : l ≠ []) :
    (x :: l).getLast? = l.getLast? := by
  cases l with
  | nil => exact absurd rfl h
  | cons y t => exact List.getLast?_cons_cons

/-- The segment loop always emits at least the final padded segment. -/
lemma buildLoop_ne_nil (fps : ℚ) (rest : List (CSample × ℕ)) (cur : ℕ) (st last : ℚ) :
    buildLoop fps rest cur st last ≠ [] := by
  induction rest generalizing cur st last with
  | nil => simp [buildLoop]
  | cons p rest ih =>
    unfold buildLoop
    by_cases h : p.2 ≠ cur
    · rw [if_pos h]; simp
    · rw [if_neg h]; exact ih _ _ _

/-- The first segment the loop emits starts at the open segment's start. -/
lemma buildLoop_head_start (fps : ℚ) (rest : List (CSample × ℕ)) (cur : ℕ) (st last : ℚ) :
    (buildLoop fps rest cur st last).head?.map VSegment.start = some st := by
  induction rest generalizing cur st last with
  | nil => simp [buildLoop]
  | cons p rest ih =>
    unfold buildLoop
    by_cases h : p.2 ≠ cur
    · rw [if_pos h]; simp
    · rw [if_neg h]; exact ih _ _ _

/-- Each segment the loop emits ends where the next one starts. -/
lemma buildLoop_chain (fps : ℚ) (rest : List (CSample × ℕ)) (cur : ℕ) (st last : ℚ) :
    List.Chain' (fun a b => a.«end» = b.start) (buildLoop fps rest cur st last) := by
  induction rest generalizing cur st last with
  | nil => simp [buildLoop]
  | cons p rest ih =>
    unfold buildLoop
    by_cases h : p.2 ≠ cur
    · rw [if_pos h]
      refine List.chain'_cons'.mpr ⟨?_, ih _ _ _⟩
      intro y hy
      have hh := buildLoop_head_start fps rest p.2 p.1.timestamp p.1.timestamp
      rw [Option.mem_def] at hy
      rw [hy] at hh
      simp only [Option.map_some', Option.some.injEq] at hh
      exact hh.symm
    · rw [if_neg h]; exact ih _ _ _

/-- The last segment the loop emits ends one sampling interval after the
timestamp of the last consumed sample. -/
lemma buildLoop_last (fps : ℚ) (rest : List (CSample × ℕ)) (cur : ℕ) (st last : ℚ) :
    (buildLoop fps rest cur st last).getLast?.map (fun s => s.«end») =
      some (lastTs0 rest last + 1 / fps) := by
  induction rest generalizing cur st last with
  | nil => simp [buildLoop, lastTs0]
  | cons p rest ih =>
    unfold buildLoop
    by_cases h : p.2 ≠ cur
    · rw [if_pos h]
      rw [getLast?_cons_of_ne_nil _ _ (buildLoop_ne_nil fps rest p.2 p.1.timestamp p.1.timestamp)]
      rw [ih]
      rfl
    · rw [if_neg h]
      rw [ih]
      rfl

/-- `lastTs0` computes the timestamp of a non-empty stream's last element. -/
lemma lastTs0_eq_getLast (l : List (CSample × ℕ)) (p : CSample × ℕ) :
    ((p :: l).getLast?).map (fun q => q.1.timestamp) = some (lastTs0 l p.1.timestamp) := by
  induction l generalizing p with
  | nil => simp [lastTs0]
  | cons q t ih =>
    rw [List.getLast?_cons_cons, ih q]
    rfl

/-- Positive ranges sum to a nonnegative total duration. -/
lemma total_duration_nonneg (ranges : List SegRange)
    (hpos : ∀ r ∈ ranges, r.start < r.«end») : 0 ≤ total_duration ranges := by
  unfold total_duration
  apply List.sum_nonneg
  intro x hx
  obtain ⟨r, hr, rfl⟩ := List.mem_map.mp hx
  linarith [hpos r hr]

/-- The plan's source fields are exactly the input ranges, in order. -/
lemma concatPlanFrom_map_src (ranges : List SegRange) : ∀ off : ℚ,
    (concatPlanFrom ranges off).map (fun e => (e.source_start, e.source_end)) =
      ranges.map (fun s => (s.start, s.«end»)) := by
  induction ranges with
  | nil => intro off; rfl
  | cons s rest ih => intro off; simp [concatPlanFrom, ih]

/-- The first plan entry carries the initial offset. -/
lemma concatPlanFrom_head (ranges : List SegRange) (off : ℚ) :
    ∀ e ∈ (concatPlanFrom ranges off).head?, e.output_offset = off := by
  cases ranges with
  | nil => simp [concatPlanFrom]
  | cons s rest =>
    intro e he
    rw [Option.mem_def] at he
    simp only [concatPlanFrom, List.head?_cons, Option.some.injEq] at he
    rw [← he]

/-- Each plan entry's offset advances the previous one by its duration. -/
lemma concatPlanFrom_chain (ranges : List SegRange) : ∀ off : ℚ,
    List.Chain' (fun a b => b.output_offset = a.output_offset + (a.source_end - a.source_start))
      (concatPlanFrom ranges off) := by
  induction ranges with
  | nil => intro off; simp [concatPlanFrom]
  | cons s rest ih =>
    intro off
    refine List.chain'_cons'.mpr ⟨?_, ih _⟩
    intro y hy
    have hh := concatPlanFrom_head rest (off + (s.«end» - s.start)) y hy
    simpa using hh

/-- Every entry's offset is at least the initial offset. -/
lemma concatPlanFrom_mem_le (ranges : List SegRange)
    (hpos : ∀ r ∈ ranges, r.start < r.«end») : ∀ (off : ℚ) (e : PlanEntry),
    e ∈ concatPlanFrom ranges off → off ≤ e.output_offset := by
  induction ranges with
  | nil => intro off e he; simp [concatPlanFrom] at he
  | cons s rest ih =>
    intro off e he
    have hd : 0 < s.«end» - s.start := by have := hpos s (by simp); linarith
    rcases List.mem_cons.mp he with rfl | he'
    · exact le_refl _
    · have := ih (fun r hr => hpos r (List.mem_cons_of_mem _ hr)) (off + (s.«end» - s.start)) e he'
      linarith

/-- The output intervals of the plan starting at `off` exactly cover
`[off, off + total)`. -/
lemma concatPlanFrom_cover : ∀ (ranges : List SegRange),
    (∀ r ∈ ranges, r.start < r.«end») → ∀ off x : ℚ,
    (∃ e ∈ concatPlanFrom ranges off,
        e.output_offset ≤ x ∧ x < e.output_offset + (e.source_end - e.source_start)) ↔
      (off ≤ x ∧ x < off + total_duration ranges) := by
  intro ranges
  induction ranges with
  | nil =>
    intro _ off x
    simp only [concatPlanFrom, List.not_mem_nil, false_and, exists_false, exists_const,
      total_duration, List.map_nil, List.sum_nil, add_zero, false_iff, not_and, not_lt]
    intro h
    exact h
  | cons s rest ih =>
    intro hpos off x
    have hd : 0 < s.«end» - s.start := by have := hpos s (by simp); linarith
    have hrest : ∀ r ∈ rest, r.start < r.«end» :=
      fun r hr => hpos r (List.mem_cons_of_mem _ hr)
    have hsum : 0 ≤ total_duration rest := total_duration_nonneg rest hrest
    have htot : total_duration (s :: rest) = (s.«end» - s.start) + total_duration rest := by
      simp [total_duration]
    constructor
    · rintro ⟨e, he, hx1, hx2⟩
      rcases List.mem_cons.mp he with rfl | he'
      · simp only at hx1 hx2
        constructor
        · exact hx1
        · rw [htot]; linarith
      · have := (ih hrest (off + (s.«end» - s.start)) x).mp ⟨e, he', hx1, hx2⟩
        rw [htot]
        constructor
        · linarith [this.1]
        · linarith [this.2]
    · rintro ⟨hx1, hx2⟩
      by_cases hx : x < off + (s.«end» - s.start)
      · exact ⟨⟨s.start, s.«end», off⟩, List.mem_cons_self _ _, hx1, by simpa using hx⟩
      · push_neg at hx
        obtain ⟨e, he, h1, h2⟩ := (ih hrest (off + (s.«end» - s.start)) x).mpr
          ⟨hx, by rw [htot] at hx2; linarith⟩
        exact ⟨e, List.mem_cons_of_mem _ he, h1, h2⟩

/-- The plan's output intervals never overlap: each entry ends no later than
any later entry begins. -/
lemma concatPlanFrom_pairwise : ∀ (ranges : List SegRange),
    (∀ r ∈ ranges, r.start < r.«end») → ∀ off : ℚ,
    List.Pairwise (fun a b => a.output_offset + (a.source_end - a.source_start) ≤ b.output_offset)
      (concatPlanFrom ranges off) := by
  intro ranges
  induction ranges with
  | nil => intro _ off; simp [concatPlanFrom]
  | cons s rest ih =>
    intro hpos off
    have hrest : ∀ r ∈ rest, r.start < r.«end» :=
      fun r hr => hpos r (List.mem_cons_of_mem _ hr)
    refine List.Pairwise.cons ?_ (ih hrest _)
    intro b hb
    have := concatPlanFrom_mem_le rest hrest (off + (s.«end» - s.start)) b hb
    simpa using this

/-- Case analysis of a successful refinement: either the window was accepted
unchanged because the dominant ratio reached 0.9, or it was trimmed to the
dominant speaker's first/last overlapping segments and passed the
minimum-duration check. -/
lemma refineHighlight_cases (min_duration : ℚ) (segs : List TSegment) (h r : Highlight)
    (hr : refineHighlight min_duration segs h = some r) :
    (∃ dom, dominant_speaker segs h = some dom ∧
      ¬ dominant_ratio segs h dom < 9/10 ∧ r = h) ∨
    (∃ dom first last, dominant_speaker segs h = some dom ∧
      dominant_ratio segs h dom < 9/10 ∧
      (dom_segments segs h dom).head? = some first ∧
      (dom_segments segs h dom).getLast? = some last ∧
      min_duration ≤ min h.«end» last.«end» - max h.start first.start ∧
      r = { h with start := max h.start first.start, «end» := min h.«end» last.«end» }) := by
  unfold refineHighlight at hr
  split at hr
  · simp at hr
  · split at hr
    · simp at hr
    · split at hr
      · simp at hr
      · rename_i dom hdom
        split at hr
        · rename_i hratio
          split at hr
          · rename_i first last hfirst hlast
            split at hr
            · rename_i hmin
              right
              refine ⟨dom, first, last, hdom, hratio, hfirst, hlast, hmin, ?_⟩
              simpa using hr.symm
            · simp at hr
          · simp at hr
        · rename_i hratio
          left
          exact ⟨dom, hdom, hratio, by simpa using hr.symm⟩

/-- What Python's first-maximum scan returns: either the seed survives and
everything scanned is at most the seed value, or the result is the first
entry of the list that strictly exceeds the seed and every later entry is at
most its value while every earlier entry is strictly below it. -/
lemma maxGo_spec : ∀ (rest : List (String × ℚ)) (bk : String) (bv : ℚ),
    (maxGo rest bk bv = bk ∧ ∀ p ∈ rest, p.2 ≤ bv) ∨
    (∃ v pre post, rest = pre ++ (maxGo rest bk bv, v) :: post ∧ bv < v ∧
      (∀ p ∈ pre, p.2 < v) ∧ (∀ p ∈ post, p.2 ≤ v)) := by
  intro rest
  induction rest with
  | nil => intro bk bv; left; exact ⟨rfl, by simp⟩
  | cons q rest ih =>
    intro bk bv
    obtain ⟨k, v⟩ := q
    by_cases hv : bv < v
    · have heq : maxGo ((k, v) :: rest) bk bv = maxGo rest k v := by
        simp [maxGo, hv]
      rcases ih k v with ⟨h1, h2⟩ | ⟨v', pre, post, hsplit, hlt, hpre, hpost⟩
      · right
        refine ⟨v, [], rest, ?_, hv, by simp, h2⟩
        rw [heq, h1]
        simp
      · right
        refine ⟨v', (k, v) :: pre, post, ?_, by linarith, ?_, hpost⟩
        · rw [heq]
          simp only [List.cons_append, List.cons.injEq, true_and]
          exact hsplit
        · intro p hp
          rcases List.mem_cons.mp hp with rfl | hp'
          · exact hlt
          · exact hpre p hp'
    · have heq : maxGo ((k, v) :: rest) bk bv = maxGo rest bk bv := by
        simp [maxGo, hv]
      push_neg at hv
      rcases ih bk bv with ⟨h1, h2⟩ | ⟨v', pre, post, hsplit, hlt, hpre, hpost⟩
      · left
        refine ⟨by rw [heq, h1], ?_⟩
        intro p hp
        rcases List.mem_cons.mp hp with rfl | hp'
        · exact hv
        · exact h2 p hp'
      · right
        refine ⟨v', (k, v) :: pre, post, ?_, hlt, ?_, hpost⟩
        · rw [heq]
          simp only [List.cons_append, List.cons.injEq, true_and]
          exact hsplit
        · intro p hp
          rcases List.mem_cons.mp hp with rfl | hp'
          · linarith
          · exact hpre p hp'

/-- A successful `maxByValue` returns the first key of the mapping attaining
the maximal value: strictly greater than everything before it, at least
everything after it. -/
lemma maxByValue_spec (m : List (String × ℚ)) (k : String) (hk : maxByValue m = some k) :
    ∃ v pre post, m = pre ++ (k, v) :: post ∧
      (∀ p ∈ pre, p.2 < v) ∧ (∀ p ∈ post, p.2 ≤ v) := by
  cases m with
  | nil => simp [maxByValue] at hk
  | cons q rest =>
    obtain ⟨k0, v0⟩ := q
    simp only [maxByValue, Option.some.injEq] at hk
    subst hk
    rcases maxGo_spec rest k0 v0 with ⟨h1, h2⟩ | ⟨v, pre, post, hsplit, hlt, hpre, hpost⟩
    · exact ⟨v0, [], rest, by rw [h1]; simp, by simp, h2⟩
    · refine ⟨v, (k0, v0) :: pre, post, ?_, ?_, hpost⟩
      · simp only [List.cons_append, List.cons.injEq, true_and]
        exact hsplit
      · intro p hp
        rcases List.mem_cons.mp hp with rfl | hp'
        · exact hlt
        · exact hpre p hp'

/-- Every key of an `addDur` result is the added key or a key of the input
mapping. -/
lemma addDur_key (m : List (String × ℚ)) (k : String) (v : ℚ) :
    ∀ p ∈ addDur m k v, p.1 = k ∨ ∃ q ∈ m, q.1 = p.1 := by
  intro p hp
  unfold addDur at hp
  split at hp
  · obtain ⟨q, hq, rfl⟩ := List.mem_map.mp hp
    right
    refine ⟨q, hq, ?_⟩
    split <;> rfl
  · rcases List.mem_append.mp hp with hm | hk
    · right; exact ⟨p, hm, rfl⟩
    · left
      have : p = (k, v) := by simpa using hk
      rw [this]

/-- Every key accumulated by the duration fold comes from the initial
mapping or from the speaker of some scanned segment. -/
lemma foldl_durStep_key (h : Highlight) :
    ∀ (L : List TSegment) (m0 : List (String × ℚ)) (p : String × ℚ),
      p ∈ L.foldl (durStep h) m0 → (∃ q ∈ m0, q.1 = p.1) ∨ ∃ g ∈ L, g.speaker = p.1 := by
  intro L
  induction L with
  | nil => intro m0 p hp; left; exact ⟨p, hp, rfl⟩
  | cons g L ih =>
    intro m0 p hp
    simp only [List.foldl_cons] at hp
    rcases ih (durStep h m0 g) p hp with ⟨q, hq, hq1⟩ | ⟨g', hg', hgs⟩
    · dsimp only [durStep] at hq
      split at hq
      · rcases addDur_key m0 g.speaker _ q hq with hk | ⟨q', hq', hq'1⟩
        · right
          exact ⟨g, by simp, by rw [← hq1, hk]⟩
        · left; exact ⟨q', hq', by rw [hq'1, hq1]⟩
      · left; exact ⟨q, hq, hq1⟩
    · right; exact ⟨g', List.mem_cons_of_mem _ hg', hgs⟩

/-- Every key of `speaker_durations` is the speaker of some overlapping
segment. -/
lemma speaker_durations_key (segs : List TSegment) (h : Highlight) :
    ∀ p ∈ speaker_durations segs h,
      ∃ g ∈ get_segments_in_range segs h.start h.«end», g.speaker = p.1 := by
  intro p hp
  rcases foldl_durStep_key h (get_segments_in_range segs h.start h.«end») [] p hp with
    ⟨q, hq, _⟩ | hg
  · simp at hq
  · exact hg

/-! ## Claim theorems -/

/-- C4: the clusterer assigns each sample to the first existing cluster, in
ascending cluster-id (creation) order, whose centroid is at Euclidean
distance strictly below the threshold; in particular if clusters 0 and 1
both lie below threshold the sample goes to cluster 0 regardless of which
distance is smaller, and a distance exactly equal to the threshold is not a
match. -/
theorem cluster_first_match :
    (∀ (clusters : List RGB) (c : RGB) (t : ℚ) (i : ℕ),
        findCluster clusters c t = some i →
          ∃ ci, clusters.get? i = some ci ∧ distLt c ci t = true ∧
            ∀ j, j < i → ∀ cj, clusters.get? j = some cj → distLt c cj t = false) ∧
    (∀ (clusters : List RGB) (c c0 c1 : RGB) (t : ℚ),
        clusters.get? 0 = some c0 → clusters.get? 1 = some c1 →
        distLt c c0 t = true → distLt c c1 t = true →
          (assignSample clusters c t).1 = 0) ∧
    (∀ (clusters : List RGB) (c cj : RGB) (t : ℚ) (j : ℕ),
        clusters.get? j = some cj → dist2 c cj = t * t →
          findCluster clusters c t ≠ some j) := by
  refine ⟨findCluster_some, ?_, ?_⟩
  · intro clusters c c0 c1 t h0 h1 hd0 hd1
    cases clusters with
    | nil => simp at h0
    | cons x rest =>
      have hx : x = c0 := by simpa using h0
      subst hx
      unfold assignSample
      rw [show findCluster (x :: rest) c t = some 0 by
        unfold findCluster; rw [if_pos hd0]]
  · intro clusters c cj t j hj hdist hfind
    obtain ⟨ci, hget, hlt, _⟩ := findCluster_some clusters c t j hfind
    rw [hj] at hget
    cases hget
    unfold distLt at hlt
    simp only [Bool.and_eq_true, decide_eq_true_eq] at hlt
    exact absurd hdist (ne_of_lt hlt.2)

/-- Witness for C4: with centroids `(0,0,0)` and `(1,1,1)` and threshold 5,
the sample color `(1,0,0)` is within threshold of both clusters and is
assigned to cluster 0; and a sample at distance exactly 5 from the sole
centroid `(3,4,0)` is not matched. -/
theorem cluster_first_match_witness :
    (assignSample [⟨0, 0, 0⟩, ⟨1, 1, 1⟩] ⟨1, 0, 0⟩ 5).1 = 0 ∧
    findCluster [⟨3, 4, 0⟩] ⟨0, 0, 0⟩ 5 ≠ some 0 :=
  ⟨cluster_first_match.2.1 [⟨0, 0, 0⟩, ⟨1, 1, 1⟩] ⟨1, 0, 0⟩ ⟨0, 0, 0⟩ ⟨1, 1, 1⟩ 5
      rfl rfl (by norm_num [distLt, dist2]) (by norm_num [distLt, dist2]),
   cluster_first_match.2.2 [⟨3, 4, 0⟩] ⟨0, 0, 0⟩ ⟨3, 4, 0⟩ 5 0 rfl (by norm_num [dist2])⟩

/-- C7: on a match at cluster `i` the centroid is updated to
`centroid*0.9 + color*0.1` (the smoothing factor is the fixed 0.1 baked into
`emaUpdate`) and `i` is returned; on no match a new cluster whose centroid
is the sample's color is appended, and the returned id is the cluster count
before the creation. -/
theorem cluster_update_rule :
    (∀ (clusters : List RGB) (c : RGB) (t : ℚ) (i : ℕ) (ci : RGB),
        findCluster clusters c t = some i → clusters.get? i = some ci →
          assignSample clusters c t = (i, clusters.set i (emaUpdate ci c))) ∧
    (∀ (clusters : List RGB) (c : RGB) (t : ℚ),
        findCluster clusters c t = none →
          assignSample clusters c t = (clusters.length, clusters ++ [c])) := by
  constructor
  · intro clusters c t i ci hfind hget
    unfold assignSample
    rw [hfind]
    have hget' : clusters[i]? = some ci := by rw [← List.get?_eq_getElem?]; exact hget
    simp [List.getD_eq_getD_get?, hget']
  · intro clusters c t hfind
    unfold assignSample
    rw [hfind]

/-- Witness for C7: matching the sole cluster `(0,0,0)` with color `(1,1,1)`
at threshold 30 EMA-updates the centroid and returns id 0; the far color
`(200,200,200)` matches nothing, so a new cluster with that exact centroid
is appended under id 1 (the previous cluster count). -/
theorem cluster_update_rule_witness :
    assignSample [⟨0, 0, 0⟩] ⟨1, 1, 1⟩ 30 =
      (0, ([⟨0, 0, 0⟩] : List RGB).set 0 (emaUpdate ⟨0, 0, 0⟩ ⟨1, 1, 1⟩)) ∧
    assignSample [⟨0, 0, 0⟩] ⟨200, 200, 200⟩ 30 =
      (([⟨0, 0, 0⟩] : List RGB).length, [⟨0, 0, 0⟩] ++ [⟨200, 200, 200⟩]) :=
  ⟨cluster_update_rule.1 [⟨0, 0, 0⟩] ⟨1, 1, 1⟩ 30 0 ⟨0, 0, 0⟩
      (by norm_num [findCluster, distLt, dist2]) rfl,
   cluster_update_rule.2 [⟨0, 0, 0⟩] ⟨200, 200, 200⟩ 30
      (by norm_num [findCluster, distLt, dist2])⟩

/-- C2: for a non-empty stream of labeled samples, the segment builder's
output satisfies `segments[i].end = segments[i+1].start` for every adjacent
pair, starts at the first sample's timestamp, and ends at the last sample's
timestamp plus the sampling interval `1/fps`; an empty input yields an empty
output (the builder is a total function, so no error is possible). -/
theorem segment_contiguity (pairs : List (CSample × ℕ)) (fps : ℚ) (hne : pairs ≠ []) :
    List.Chain' (fun a b => a.«end» = b.start) (build pairs fps) ∧
    (build pairs fps).head?.map VSegment.start = pairs.head?.map (fun p => p.1.timestamp) ∧
    (build pairs fps).getLast?.map (fun s => s.«end») =
      pairs.getLast?.map (fun p => p.1.timestamp + 1 / fps) ∧
    build [] fps = [] := by
  obtain ⟨p, rest, rfl⟩ := List.exists_cons_of_ne_nil hne
  refine ⟨buildLoop_chain fps rest p.2 p.1.timestamp p.1.timestamp, ?_, ?_, rfl⟩
  · show (buildLoop fps rest p.2 p.1.timestamp p.1.timestamp).head?.map VSegment.start = _
    rw [buildLoop_head_start]
    simp
  · show (buildLoop fps rest p.2 p.1.timestamp p.1.timestamp).getLast?.map (fun s => s.«end») = _
    rw [buildLoop_last]
    cases hq : (p :: rest).getLast? with
    | none => simp at hq
    | some q =>
      have hts := lastTs0_eq_getLast rest p
      rw [hq] at hts
      simp only [Option.map_some', Option.some.injEq] at hts
      simp [hts]

/-- Witness for C2, on the spec's first concrete scenario: samples at
timestamps 0, 1, 2 carrying cluster ids 0, 0, 1 with `fps = 1` yield the
segments `(0, 2, "Speaker 0")` and `(2, 3, "Speaker 1")`. -/
theorem segment_contiguity_witness :
    List.Chain' (fun a b => a.«end» = b.start)
      (build [(⟨0, ⟨0, 0, 0⟩⟩, 0), (⟨1, ⟨1, 1, 1⟩⟩, 0), (⟨2, ⟨200, 200, 200⟩⟩, 1)] 1) ∧
    (build [(⟨0, ⟨0, 0, 0⟩⟩, 0), (⟨1, ⟨1, 1, 1⟩⟩, 0), (⟨2, ⟨200, 200, 200⟩⟩, 1)] 1).head?.map
        VSegment.start =
      ([(⟨0, ⟨0, 0, 0⟩⟩, 0), (⟨1, ⟨1, 1, 1⟩⟩, 0),
          (⟨2, ⟨200, 200, 200⟩⟩, 1)] : List (CSample × ℕ)).head?.map (fun p => p.1.timestamp) ∧
    (build [(⟨0, ⟨0, 0, 0⟩⟩, 0), (⟨1, ⟨1, 1, 1⟩⟩, 0), (⟨2, ⟨200, 200, 200⟩⟩, 1)] 1).getLast?.map
        (fun s => s.«end») =
      ([(⟨0, ⟨0, 0, 0⟩⟩, 0), (⟨1, ⟨1, 1, 1⟩⟩, 0),
          (⟨2, ⟨200, 200, 200⟩⟩, 1)] : List (CSample × ℕ)).getLast?.map
        (fun p => p.1.timestamp + 1 / 1) ∧
    build [] 1 = [] :=
  segment_contiguity [(⟨0, ⟨0, 0, 0⟩⟩, 0), (⟨1, ⟨1, 1, 1⟩⟩, 0), (⟨2, ⟨200, 200, 200⟩⟩, 1)] 1
    (by simp)

/-- C3: for ranges each with `end > start`, the stitch plan has exactly one
entry per range in the input's requested order; the offsets satisfy
`offset_0 = 0` and `offset_{i+1} = offset_i + (end_i - start_i)`; and the
output intervals `[offset_i, offset_i + d_i)` exactly tile
`[0, total_duration)` — every point of `[0, total_duration)` lies in some
interval (no gaps) and the intervals are pairwise disjoint (each ends no
later than any later one begins, so no overlaps). -/
theorem stitch_tiling (ranges : List SegRange) (hpos : ∀ r ∈ ranges, r.start < r.«end») :
    (concat_plan ranges).map (fun e => (e.source_start, e.source_end)) =
      ranges.map (fun s => (s.start, s.«end»)) ∧
    (∀ e ∈ (concat_plan ranges).head?, e.output_offset = 0) ∧
    List.Chain' (fun a b => b.output_offset = a.output_offset + (a.source_end - a.source_start))
      (concat_plan ranges) ∧
    (∀ x : ℚ, (∃ e ∈ concat_plan ranges,
        e.output_offset ≤ x ∧ x < e.output_offset + (e.source_end - e.source_start)) ↔
      (0 ≤ x ∧ x < total_duration ranges)) ∧
    List.Pairwise (fun a b => a.output_offset + (a.source_end - a.source_start) ≤ b.output_offset)
      (concat_plan ranges) := by
  refine ⟨concatPlanFrom_map_src ranges 0, concatPlanFrom_head ranges 0,
    concatPlanFrom_chain ranges 0, ?_, concatPlanFrom_pairwise ranges hpos 0⟩
  intro x
  have h := concatPlanFrom_cover ranges hpos 0 x
  simpa using h

/-- Witness for C3, on the spec's third concrete scenario: the ranges
`[(5,10), (20,22), (1,4)]` produce the plan
`[{5,10,0}, {20,22,5}, {1,4,7}]` tiling `[0, 10)`. -/
theorem stitch_tiling_witness :
    (concat_plan [⟨5, 10⟩, ⟨20, 22⟩, ⟨1, 4⟩]).map (fun e => (e.source_start, e.source_end)) =
      ([⟨5, 10⟩, ⟨20, 22⟩, ⟨1, 4⟩] : List SegRange).map (fun s => (s.start, s.«end»)) ∧
    (∀ e ∈ (concat_plan [⟨5, 10⟩, ⟨20, 22⟩, ⟨1, 4⟩]).head?, e.output_offset = 0) ∧
    List.Chain' (fun a b => b.output_offset = a.output_offset + (a.source_end - a.source_start))
      (concat_plan [⟨5, 10⟩, ⟨20, 22⟩, ⟨1, 4⟩]) ∧
    (∀ x : ℚ, (∃ e ∈ concat_plan [⟨5, 10⟩, ⟨20, 22⟩, ⟨1, 4⟩],
        e.output_offset ≤ x ∧ x < e.output_offset + (e.source_end - e.source_start)) ↔
      (0 ≤ x ∧ x < total_duration [⟨5, 10⟩, ⟨20, 22⟩, ⟨1, 4⟩])) ∧
    List.Pairwise (fun a b => a.output_offset + (a.source_end - a.source_start) ≤ b.output_offset)
      (concat_plan [⟨5, 10⟩, ⟨20, 22⟩, ⟨1, 4⟩]) :=
  stitch_tiling [⟨5, 10⟩, ⟨20, 22⟩, ⟨1, 4⟩]
    (by intro r hr; fin_cases hr <;> norm_num)

/-- C5: when several labels tie for the maximal accumulated clipped
duration, the dominant label is the one first encountered in segment
iteration order: the duration mapping's keys appear in first-insertion
order (second conjunct: `addDur` appends a new key and preserves existing
ones), and the chosen key has every earlier key strictly smaller and every
later one no greater (first conjunct); concretely, for window `(10,40)`
with `min_duration = 15` and segments `(8,25,"A")`, `(25,42,"B")` the
durations tie at 15, label "A" wins, and the refiner returns the trimmed
window `(10,25)`. -/
theorem dominant_tie_break :
    (∀ (segs : List TSegment) (h : Highlight) (k : String),
        dominant_speaker segs h = some k →
          ∃ v pre post, speaker_durations segs h = pre ++ (k, v) :: post ∧
            (∀ p ∈ pre, p.2 < v) ∧ (∀ p ∈ post, p.2 ≤ v)) ∧
    (∀ (m : List (String × ℚ)) (k : String) (v : ℚ),
        (addDur m k v).map Prod.fst =
          if m.any (fun p => p.1 == k) then m.map Prod.fst else m.map Prod.fst ++ [k]) ∧
    refineHighlight 15 [⟨8, 25, "A"⟩, ⟨25, 42, "B"⟩] ⟨1, 10, 40, "t", 7, "r", none, []⟩ =
      some ⟨1, 10, 25, "t", 7, "r", none, []⟩ := by
  refine ⟨?_, ?_, ?_⟩
  · intro segs h k hk
    exact maxByValue_spec _ k hk
  · intro m k v
    unfold addDur
    split
    · rw [List.map_map,
        show (Prod.fst ∘ fun p : String × ℚ => if p.1 == k then (p.1, p.2 + v) else p) =
          Prod.fst from funext fun p => by
            show (if p.1 == k then (p.1, p.2 + v) else p).1 = p.1
            split <;> rfl]
    · simp
  · norm_num [refineHighlight, get_segments_in_range, speaker_durations, dominant_speaker,
      dominant_ratio, dom_segments, maxByValue, maxGo, lookupD, addDur, durStep, clippedDur,
      List.filter, List.foldl, List.find?, List.any, beq_iff_eq,
      show (("A" : String) == "B") = false from by decide,
      show (("B" : String) == "A") = false from by decide,
      show (("A" : String) == "A") = true from by decide,
      show (("B" : String) == "B") = true from by decide,
      show ("A" : String) ≠ "B" from by decide, show ("B" : String) ≠ "A" from by decide]

/-- Witness for C5: in the tie of the concrete scenario the duration
mapping is split around key "A" with nothing strictly greater before it and
nothing greater after it. -/
theorem dominant_tie_break_witness :
    ∃ v pre post,
      speaker_durations [⟨8, 25, "A"⟩, ⟨25, 42, "B"⟩] ⟨1, 10, 40, "t", 7, "r", none, []⟩ =
        pre ++ ("A", v) :: post ∧ (∀ p ∈ pre, p.2 < v) ∧ (∀ p ∈ post, p.2 ≤ v) :=
  dominant_tie_break.1 [⟨8, 25, "A"⟩, ⟨25, 42, "B"⟩] ⟨1, 10, 40, "t", 7, "r", none, []⟩ "A"
    (by norm_num [get_segments_in_range, speaker_durations, dominant_speaker,
      maxByValue, maxGo, addDur, durStep, clippedDur,
      List.filter, List.foldl, List.any, beq_iff_eq,
      show (("A" : String) == "B") = false from by decide,
      show (("B" : String) == "A") = false from by decide,
      show ("A" : String) ≠ "B" from by decide, show ("B" : String) ≠ "A" from by decide])

/-- C6: an accepted refined window never leaves the original window —
`h.start ≤ r.start` and `r.end ≤ h.end` in both the accept-unchanged and the
trimmed branch. -/
theorem refinement_containment (min_duration : ℚ) (segs : List TSegment) (h r : Highlight)
    (hr : refineHighlight min_duration segs h = some r) :
    h.start ≤ r.start ∧ r.«end» ≤ h.«end» := by
  rcases refineHighlight_cases min_duration segs h r hr with
    ⟨dom, _, _, rfl⟩ | ⟨dom, first, last, _, _, _, _, _, rfl⟩
  · exact ⟨le_refl _, le_refl _⟩
  · exact ⟨le_max_left _ _, min_le_left _ _⟩

/-- Witness for C6 on the trimmed concrete scenario: the refined window
`(10,25)` stays inside the original `(10,40)`. -/
theorem refinement_containment_witness :
    (⟨1, 10, 40, "t", 7, "r", none, []⟩ : Highlight).start ≤
      (⟨1, 10, 25, "t", 7, "r", none, []⟩ : Highlight).start ∧
    (⟨1, 10, 25, "t", 7, "r", none, []⟩ : Highlight).«end» ≤
      (⟨1, 10, 40, "t", 7, "r", none, []⟩ : Highlight).«end» :=
  refinement_containment 15 [⟨8, 25, "A"⟩, ⟨25, 42, "B"⟩]
    ⟨1, 10, 40, "t", 7, "r", none, []⟩ ⟨1, 10, 25, "t", 7, "r", none, []⟩
    (by norm_num [refineHighlight, get_segments_in_range, speaker_durations, dominant_speaker,
      dominant_ratio, dom_segments, maxByValue, maxGo, lookupD, addDur, durStep, clippedDur,
      List.filter, List.foldl, List.find?, List.any, beq_iff_eq,
      show (("A" : String) == "B") = false from by decide,
      show (("B" : String) == "A") = false from by decide,
      show (("A" : String) == "A") = true from by decide,
      show (("B" : String) == "B") = true from by decide,
      show ("A" : String) ≠ "B" from by decide, show ("B" : String) ≠ "A" from by decide])

/-- C9: whenever a dominant speaker exists (in particular in the trim
branch, entered when its ratio is below 0.9), the list of overlapping
segments carrying it is non-empty, so the rejection branch guarded by
`dom_segments` being empty is unreachable. -/
theorem trim_branch_nonempty (segs : List TSegment) (h : Highlight) (dom : String)
    (hd : dominant_speaker segs h = some dom)
    (_hratio : dominant_ratio segs h dom < 9/10) :
    dom_segments segs h dom ≠ [] := by
  obtain ⟨v, pre, post, hsplit, _, _⟩ := maxByValue_spec _ dom hd
  have hmem : (dom, v) ∈ speaker_durations segs h := by rw [hsplit]; simp
  obtain ⟨g, hg, hgs⟩ := speaker_durations_key segs h (dom, v) hmem
  have hgd : g ∈ dom_segments segs h dom := by
    unfold dom_segments
    exact List.mem_filter.mpr ⟨hg, by simp [hgs]⟩
  exact List.ne_nil_of_mem hgd

/-- Witness for C9 on the trimmed concrete scenario: speaker "A" dominates
window `(10,40)` with ratio `1/2 < 9/10` and its segment list is
non-empty. -/
theorem trim_branch_nonempty_witness :
    dom_segments [⟨8, 25, "A"⟩, ⟨25, 42, "B"⟩] ⟨1, 10, 40, "t", 7, "r", none, []⟩ "A" ≠ [] :=
  trim_branch_nonempty [⟨8, 25, "A"⟩, ⟨25, 42, "B"⟩] ⟨1, 10, 40, "t", 7, "r", none, []⟩ "A"
    (by norm_num [get_segments_in_range, speaker_durations, dominant_speaker,
      maxByValue, maxGo, addDur, durStep, clippedDur,
      List.filter, List.foldl, List.any, beq_iff_eq,
      show (("A" : String) == "B") = false from by decide,
      show (("B" : String) == "A") = false from by decide,
      show ("A" : String) ≠ "B" from by decide, show ("B" : String) ≠ "A" from by decide])
    (by norm_num [get_segments_in_range, speaker_durations, dominant_speaker, dominant_ratio,
      maxByValue, maxGo, lookupD, addDur, durStep, clippedDur,
      List.filter, List.foldl, List.find?, List.any, beq_iff_eq,
      show (("A" : String) == "B") = false from by decide,
      show (("B" : String) == "A") = false from by decide,
      show (("A" : String) == "A") = true from by decide,
      show ("A" : String) ≠ "B" from by decide, show ("B" : String) ≠ "A" from by decide])

/-- C10: refinement touches only `start` and `end`: every other field of an
accepted highlight (`id`, `text`, `virality_score`, `reason`,
`suggested_title`, `signals`) is returned unchanged, and a window accepted
with dominant ratio at least 0.9 is returned with `start` and `end`
unchanged as well. -/
theorem refine_frame_effect (min_duration : ℚ) (segs : List TSegment) (h r : Highlight)
    (hr : refineHighlight min_duration segs h = some r) :
    r.id = h.id ∧ r.text = h.text ∧ r.virality_score = h.virality_score ∧
    r.reason = h.reason ∧ r.suggested_title = h.suggested_title ∧ r.signals = h.signals ∧
    (∀ dom, dominant_speaker segs h = some dom →
      ¬ dominant_ratio segs h dom < 9/10 → r = h) := by
  rcases refineHighlight_cases min_duration segs h r hr with
    ⟨dom, hdom, hratio, rfl⟩ | ⟨dom, first, last, hdom, hratio, _, _, _, rfl⟩
  · exact ⟨rfl, rfl, rfl, rfl, rfl, rfl, fun _ _ _ => rfl⟩
  · refine ⟨rfl, rfl, rfl, rfl, rfl, rfl, ?_⟩
    intro dom' hdom' hr'
    rw [hdom] at hdom'
    cases hdom'
    exact absurd hratio hr'

/-- Witness for C10 on an accept-unchanged input: window `(0,10)` over
segments `(0,19/2,"A")`, `(19/2,10,"B")` has dominant ratio `19/20 ≥ 9/10`
and is returned with every field unchanged. -/
theorem refine_frame_effect_witness :
    (⟨2, 0, 10, "t", 7, "r", none, []⟩ : Highlight).id =
      (⟨2, 0, 10, "t", 7, "r", none, []⟩ : Highlight).id ∧
    (⟨2, 0, 10, "t", 7, "r", none, []⟩ : Highlight).text =
      (⟨2, 0, 10, "t", 7, "r", none, []⟩ : Highlight).text ∧
    (⟨2, 0, 10, "t", 7, "r", none, []⟩ : Highlight).virality_score =
      (⟨2, 0, 10, "t", 7, "r", none, []⟩ : Highlight).virality_score ∧
    (⟨2, 0, 10, "t", 7, "r", none, []⟩ : Highlight).reason =
      (⟨2, 0, 10, "t", 7, "r", none, []⟩ : Highlight).reason ∧
    (⟨2, 0, 10, "t", 7, "r", none, []⟩ : Highlight).suggested_title =
      (⟨2, 0, 10, "t", 7, "r", none, []⟩ : Highlight).suggested_title ∧
    (⟨2, 0, 10, "t", 7, "r", none, []⟩ : Highlight).signals =
      (⟨2, 0, 10, "t", 7, "r", none, []⟩ : Highlight).signals ∧
    (∀ dom, dominant_speaker [⟨0, 19/2, "A"⟩, ⟨19/2, 10, "B"⟩]
        ⟨2, 0, 10, "t", 7, "r", none, []⟩ = some dom →
      ¬ dominant_ratio [⟨0, 19/2, "A"⟩, ⟨19/2, 10, "B"⟩]
          ⟨2, 0, 10, "t", 7, "r", none, []⟩ dom < 9/10 →
      (⟨2, 0, 10, "t", 7, "r", none, []⟩ : Highlight) = ⟨2, 0, 10, "t", 7, "r", none, []⟩) :=
  refine_frame_effect 1 [⟨0, 19/2, "A"⟩, ⟨19/2, 10, "B"⟩]
    ⟨2, 0, 10, "t", 7, "r", none, []⟩ ⟨2, 0, 10, "t", 7, "r", none, []⟩
    (by norm_num [refineHighlight, get_segments_in_range, speaker_durations, dominant_speaker,
      dominant_ratio, dom_segments, maxByValue, maxGo, lookupD, addDur, durStep, clippedDur,
      List.filter, List.foldl, List.find?, List.any, beq_iff_eq,
      show (("A" : String) == "B") = false from by decide,
      show (("B" : String) == "A") = false from by decide,
      show (("A" : String) == "A") = true from by decide,
      show (("B" : String) == "B") = true from by decide,
      show ("A" : String) ≠ "B" from by decide, show ("B" : String) ≠ "A" from by decide])

/-- C1 (counterexample): the window `(0,10)` over segments `(0,19/2,"A")`
and `(19/2,10,"B")` is accepted unchanged — the dominant label "A" covers
`19/20 ≥ 9/10` of it — yet the overlapping segment `(19/2,10,"B")` does not
carry the dominant label, so an accepted window need not lie within the
sub-range of a single dominant label. -/
theorem refine_single_label_counterexample :
    refineHighlight 1 [⟨0, 19/2, "A"⟩, ⟨19/2, 10, "B"⟩] ⟨2, 0, 10, "t", 7, "r", none, []⟩ =
      some ⟨2, 0, 10, "t", 7, "r", none, []⟩ ∧
    dominant_speaker [⟨0, 19/2, "A"⟩, ⟨19/2, 10, "B"⟩]
      ⟨2, 0, 10, "t", 7, "r", none, []⟩ = some "A" ∧
    (⟨19/2, 10, "B"⟩ : TSegment) ∈
      get_segments_in_range [⟨0, 19/2, "A"⟩, ⟨19/2, 10, "B"⟩]
        (⟨2, 0, 10, "t", 7, "r", none, []⟩ : Highlight).start
        (⟨2, 0, 10, "t", 7, "r", none, []⟩ : Highlight).«end» ∧
    (⟨19/2, 10, "B"⟩ : TSegment).speaker ≠ "A" := by
  refine ⟨?_, ?_, ?_, by decide⟩ <;>
    norm_num [refineHighlight, get_segments_in_range, speaker_durations, dominant_speaker,
      dominant_ratio, dom_segments, maxByValue, maxGo, lookupD, addDur, durStep, clippedDur,
      List.filter, List.foldl, List.find?, List.any, beq_iff_eq,
      show (("A" : String) == "B") = false from by decide,
      show (("B" : String) == "A") = false from by decide,
      show (("A" : String) == "A") = true from by decide,
      show (("B" : String) == "B") = true from by decide,
      show ("A" : String) ≠ "B" from by decide, show ("B" : String) ≠ "A" from by decide]

/-- C1 (amended): an accepted window is either returned unchanged (accept
branch, where segments of other labels may overlap up to 10% of its
duration) or trimmed into the dominant label's contiguous envelope — the
span from the first to the last overlapping dominant-label segment — which
may itself contain interleaved segments of other labels; in neither case is
every overlapping segment guaranteed to carry the dominant label. -/
theorem refine_envelope (min_duration : ℚ) (segs : List TSegment) (h r : Highlight)
    (hr : refineHighlight min_duration segs h = some r) :
    r = h ∨
    ∃ dom first last, dominant_speaker segs h = some dom ∧
      (dom_segments segs h dom).head? = some first ∧
      (dom_segments segs h dom).getLast? = some last ∧
      first.start ≤ r.start ∧ r.«end» ≤ last.«end» := by
  rcases refineHighlight_cases min_duration segs h r hr with
    ⟨dom, _, _, rfl⟩ | ⟨dom, first, last, hdom, _, hfirst, hlast, _, rfl⟩
  · exact Or.inl rfl
  · exact Or.inr ⟨dom, first, last, hdom, hfirst, hlast, le_max_right _ _, min_le_right _ _⟩

/-- Witness for the amended C1, on the trimmed concrete scenario: the
refined window `(10,25)` equals neither branch vacuously — it lies inside
the envelope of the dominant label "A". -/
theorem refine_envelope_witness :
    (⟨1, 10, 25, "t", 7, "r", none, []⟩ : Highlight) = ⟨1, 10, 40, "t", 7, "r", none, []⟩ ∨
    ∃ dom first last,
      dominant_speaker [⟨8, 25, "A"⟩, ⟨25, 42, "B"⟩]
        ⟨1, 10, 40, "t", 7, "r", none, []⟩ = some dom ∧
      (dom_segments [⟨8, 25, "A"⟩, ⟨25, 42, "B"⟩]
        ⟨1, 10, 40, "t", 7, "r", none, []⟩ dom).head? = some first ∧
      (dom_segments [⟨8, 25, "A"⟩, ⟨25, 42, "B"⟩]
        ⟨1, 10, 40, "t", 7, "r", none, []⟩ dom).getLast? = some last ∧
      first.start ≤ (⟨1, 10, 25, "t", 7, "r", none, []⟩ : Highlight).start ∧
      (⟨1, 10, 25, "t", 7, "r", none, []⟩ : Highlight).«end» ≤ last.«end» :=
  refine_envelope 15 [⟨8, 25, "A"⟩, ⟨25, 42, "B"⟩]
    ⟨1, 10, 40, "t", 7, "r", none, []⟩ ⟨1, 10, 25, "t", 7, "r", none, []⟩
    (by norm_num [refineHighlight, get_segments_in_range, speaker_durations, dominant_speaker,
      dominant_ratio, dom_segments, maxByValue, maxGo, lookupD, addDur, durStep, clippedDur,
      List.filter, List.foldl, List.find?, List.any, beq_iff_eq,
      show (("A" : String) == "B") = false from by decide,
      show (("B" : String) == "A") = false from by decide,
      show (("A" : String) == "A") = true from by decide,
      show (("B" : String) == "B") = true from by decide,
      show ("A" : String) ≠ "B" from by decide, show ("B" : String) ≠ "A" from by decide])

/-- C8: the stitch-plan construction performs no validation — a range with
`end ≤ start` (here `(5,3)`) flows through silently, producing a one-entry
plan with a negative implied duration instead of an error, contradicting
the fail-fast requirement. -/
theorem stitch_no_validation :
    concat_plan [⟨5, 3⟩] = [⟨5, 3, 0⟩] ∧ total_duration [⟨5, 3⟩] = -2 := by
  refine ⟨rfl, ?_⟩
  norm_num [total_duration]

end AutoReel
